import Mathlib

/-!
Verification of the route-optimization pipeline in `rota-app-free.py`.

The script geocodes addresses, snaps them to road-graph nodes, builds an
integer distance matrix from networkx shortest-path lengths, solves a
closed-tour TSP with OR-Tools, and re-assembles the concrete route while
recomputing its total length from raw edge weights.

Shallow embedding conventions:
- graph nodes are `Nat`; coordinates are pairs of rationals;
- the multigraph's edge data `G.get_edge_data u v` is a function
  `edges : Nat → Nat → List ℚ` returning the list of `length` attributes of
  the parallel edges from `u` to `v` (`[]` models `None` / no edge);
- `nx.shortest_path` is an abstract function `sp : Nat → Nat → List Nat`,
  constrained only by hypotheses stating the guarantees networkx documents
  (the path starts at the source, ends at the target, steps along edges);
- `nx.shortest_path_length` is modelled, per those same guarantees, as the
  sum of minimum parallel-edge weights along the returned shortest path;
- the OR-Tools solver is external: a feasible solution is abstracted as the
  walk of waypoint indices the extraction loop of `resolver_tsp` reads off
  it, with the library's guarantee (the walk visits every waypoint exactly
  once, starting at the fixed start) taken as a hypothesis;
- Python exceptions are `Except String`.
-/

namespace RotaApp

/-- Python's `int()` truncation toward zero, applied to a rational standing
for the float shortest-path length (source line 32). -/
def py_int (q : ℚ) : ℤ := if q < 0 then -Int.floor (-q) else Int.floor q

/-- Python's `min(d['length'] for d in dados_aresta.values())` over a
nonempty list of parallel-edge lengths `d :: ds` (source line 95). -/
def minLen (d : ℚ) (ds : List ℚ) : ℚ := ds.foldl min d

/-- Source lines 91–96: walk the consecutive pairs of the assembled node
sequence; for each pair with edge data present add the minimum parallel-edge
length, and silently skip pairs with no edge data (`if dados_aresta:`). -/
def distancia_total_metros (edges : Nat → Nat → List ℚ) : List Nat → ℚ
  | u :: v :: rest =>
      (match edges u v with
       | [] => 0
       | d :: ds => minLen d ds) + distancia_total_metros edges (v :: rest)
  | _ => 0

/-- Modelled from the spec: `nx.shortest_path_length(G, u, v, weight='length')`
is external. networkx guarantees it equals the total weight of the path
returned by `nx.shortest_path` for the same weight, where the weight of a
multigraph step is the minimum `length` among parallel edges; we therefore
model it as the edge-weight sum along `sp u v`. -/
def spl (edges : Nat → Nat → List ℚ) (sp : Nat → Nat → List Nat) (u v : Nat) : ℚ :=
  distancia_total_metros edges (sp u v)

/-- Source lines 27–32 (all pairs reachable): entry `(i, j)` of `matriz` is
`0` on the diagonal and the `int()`-truncated shortest-path length between
the mapped nodes `nos[i]`, `nos[j]` off the diagonal. -/
def matriz (edges : Nat → Nat → List ℚ) (sp : Nat → Nat → List Nat)
    (ns : List Nat) (i j : Nat) : ℤ :=
  if i = j then 0 else py_int (spl edges sp (ns.getD i 0) (ns.getD j 0))

/-- Source lines 27–32 with reachability made explicit: `d u v` is the
shortest-path length query, `none` when no path exists (networkx raises
`NetworkXNoPath`, the spec's `UnreachableError`). The double loop is run in
`Except`: the first unreachable required pair aborts construction, surfacing
the spec's `RoutingInfeasibleError`; one row of the matrix. -/
def linha_matriz_aux (d : Nat → Nat → Option ℚ) (ns : List Nat) (i : Nat) :
    List Nat → List ℤ → Except String (List ℤ)
  | [], row => Except.ok row
  | j :: js, row =>
      if i = j then linha_matriz_aux d ns i js (row ++ [(0 : ℤ)])
      else
        match d (ns.getD i 0) (ns.getD j 0) with
        | none => Except.error "RoutingInfeasibleError"
        | some q => linha_matriz_aux d ns i js (row ++ [py_int q])

/-- Row `i` of the matrix: the inner `for j in range(n)` loop. -/
def linha_matriz (d : Nat → Nat → Option ℚ) (ns : List Nat) (n i : Nat) :
    Except String (List ℤ) :=
  linha_matriz_aux d ns i (List.range n) []

def matriz_completa_aux (d : Nat → Nat → Option ℚ) (ns : List Nat) (n : Nat) :
    List Nat → List (List ℤ) → Except String (List (List ℤ))
  | [], rows => Except.ok rows
  | i :: is, rows =>
      match linha_matriz d ns n i with
      | Except.error e => Except.error e
      | Except.ok r => matriz_completa_aux d ns n is (rows ++ [r])

/-- Source lines 27–32 run in `Except`: the whole matrix, the outer
`for i in range(n)` loop. -/
def matriz_completa (d : Nat → Nat → Option ℚ) (ns : List Nat) (n : Nat) :
    Except String (List (List ℤ)) :=
  matriz_completa_aux d ns n (List.range n) []

/-- Source lines 53–62: the tail of `resolver_tsp`. The OR-Tools solver is
external; a feasible solution is abstracted as the walk of waypoint indices
the extraction loop collects (`rota`), and `None` as `none`. The code then
appends `rota[0]` to close the tour and returns it, or returns `None` when
the solver found no solution. -/
def resolver_tsp (solution : Option (List Nat)) : Option (List Nat) :=
  match solution with
  | none => none
  | some rota => some (rota ++ [rota.headD 0])

/-- Source line 68: `rota_coordenadas = [coordenadas[i] for i in rota_otimizada]`.
This line executes unconditionally, before the `if rota_otimizada:` test on
line 70; iterating over `None` raises `TypeError`. -/
def rota_coordenadas (coords : List (ℚ × ℚ)) :
    Option (List Nat) → Except String (List (ℚ × ℚ))
  | none => Except.error "TypeError: NoneType is not iterable"
  | some r => Except.ok (r.map fun i => coords.getD i (0, 0))

/-- Source lines 65–78: the result-reporting stage. Line 68 runs first; only
then does the `if rota_otimizada:` branch print either the optimized route
(`ok`) or the clear failure message of line 78. -/
def mostrar_resultado (coords : List (ℚ × ℚ)) (rota : Option (List Nat)) :
    Except String String :=
  match rota_coordenadas coords rota with
  | Except.error e => Except.error e
  | Except.ok _ =>
      match rota with
      | some _ => Except.ok "ROTA OTIMIZADA"
      | none => Except.ok "Nao foi possivel resolver o TSP."

/-- Source line 24: the nearest-node lookup performed once per waypoint;
`nn` abstracts `ox.distance.nearest_nodes` on one coordinate. -/
def nos (nn : ℚ × ℚ → Nat) (coords : List (ℚ × ℚ)) : List Nat :=
  coords.map nn

/-- Instrumented version of source line 24: alongside the cached node list it
records the trace of coordinates passed to the nearest-node lookup, one call
per list entry. No other stage of the pipeline invokes `nn`. -/
def nosTrace (nn : ℚ × ℚ → Nat) : List (ℚ × ℚ) → List Nat × List (ℚ × ℚ)
  | [] => ([], [])
  | c :: cs =>
      let r := nosTrace nn cs
      (nn c :: r.1, c :: r.2)

/-- Source line 82: `rota_nos = [nos[i] for i in rota_otimizada]` — the Route
Assembler re-reads the cached `nos` list, no fresh lookup. -/
def rota_nos (ns tour : List Nat) : List Nat :=
  tour.map fun i => ns.getD i 0

/-- Source lines 86–88: the seam rule. If the accumulated sequence is
nonempty and the new leg's first node equals its last node, drop that
duplicate before appending. -/
def seam_append (acc path : List Nat) : List Nat :=
  match acc.getLast?, path with
  | some l, p :: rest => if p = l then acc ++ rest else acc ++ path
  | _, _ => acc ++ path

/-- Source lines 83–88, the assembly loop: for each consecutive pair of
tour nodes fetch the shortest path and seam-append it. -/
def rota_final_aux (sp : Nat → Nat → List Nat) :
    List Nat → List Nat → List Nat
  | acc, u :: v :: rest => rota_final_aux sp (seam_append acc (sp u v)) (v :: rest)
  | acc, _ => acc

/-- Source lines 83–88: the assembled node sequence. -/
def rota_final (sp : Nat → Nat → List Nat) (ns : List Nat) : List Nat :=
  rota_final_aux sp [] ns

/-- Consecutive pairs of a list, as iterated by `zip(l[:-1], l[1:])` and by
the index loop of lines 84–88. -/
def pares (l : List Nat) : List (Nat × Nat) := l.zip l.tail

/-- Sum of distance-matrix entries along the consecutive edges of a tour. -/
def soma_matriz_tour (m : Nat → Nat → ℤ) (tour : List Nat) : ℤ :=
  ((pares tour).map fun p => m p.1 p.2).sum

/-! ### Concrete fixtures used to evaluate the theorems on closed inputs -/

/-- Concrete multigraph edge data: nodes `0` and `1` joined by three parallel
edges of lengths 5, 3, 4; no other edges. -/
def edgesW : Nat → Nat → List ℚ := fun u v =>
  if u = 0 ∧ v = 1 then [5, 3, 4] else []

/-- Concrete complete-graph edge data: every distinct pair joined by one edge
of length 3/2. -/
def edgesW2 : Nat → Nat → List ℚ := fun u v =>
  if u = v then [] else [(3 : ℚ) / 2]

/-- Concrete shortest-path oracle on the complete graph: the one-edge path,
and the trivial path for a pair of equal nodes. -/
def spW : Nat → Nat → List Nat := fun u v =>
  if u = v then [u] else [u, v]

/-- Concrete distance oracle with every pair unreachable. -/
def dW : Nat → Nat → Option ℚ := fun _ _ => none

/-! ### Helper lemmas about `minLen` -/

theorem minLen_cons (d e : ℚ) (ds : List ℚ) :
    minLen d (e :: ds) = minLen (min d e) ds := rfl

theorem minLen_mem (ds : List ℚ) (d : ℚ) : minLen d ds ∈ d :: ds := by
  induction ds generalizing d with
  | nil => simp [minLen]
  | cons e ds ih =>
      rw [minLen_cons]
      rcases List.mem_cons.1 (ih (min d e)) with h1 | h1
      · rcases min_choice d e with hm | hm
        · rw [h1, hm]; exact List.mem_cons_self _ _
        · rw [h1, hm]; exact List.mem_cons_of_mem _ (List.mem_cons_self _ _)
      · exact List.mem_cons_of_mem _ (List.mem_cons_of_mem _ h1)

theorem minLen_le (ds : List ℚ) (d : ℚ) :
    minLen d ds ≤ d ∧ ∀ x ∈ ds, minLen d ds ≤ x := by
  induction ds generalizing d with
  | nil => simp [minLen]
  | cons e ds ih =>
      rw [minLen_cons]
      have h := ih (min d e)
      constructor
      · exact le_trans h.1 (min_le_left _ _)
      · intro x hx
        rcases List.mem_cons.1 hx with hx | hx
        · rw [hx]; exact le_trans h.1 (min_le_right _ _)
        · exact h.2 x hx

theorem minLen_nonneg (ds : List ℚ) (d : ℚ)
    (hd : 0 ≤ d) (hds : ∀ x ∈ ds, 0 ≤ x) : 0 ≤ minLen d ds := by
  rcases List.mem_cons.1 (minLen_mem ds d) with h | h
  · rw [h]; exact hd
  · exact hds _ h

/-! ### Helper lemmas about `distancia_total_metros` -/

/-- The per-pair contribution added to the running total. -/
def peso (edges : Nat → Nat → List ℚ) (u v : Nat) : ℚ :=
  match edges u v with
  | [] => 0
  | d :: ds => minLen d ds

theorem distancia_total_cons (edges : Nat → Nat → List ℚ) (u v : Nat)
    (rest : List Nat) :
    distancia_total_metros edges (u :: v :: rest) =
      peso edges u v + distancia_total_metros edges (v :: rest) := rfl

theorem distancia_total_nonneg (edges : Nat → Nat → List ℚ)
    (h : ∀ u v x, x ∈ edges u v → 0 ≤ x) :
    ∀ l, 0 ≤ distancia_total_metros edges l := by
  intro l
  induction l with
  | nil => simp [distancia_total_metros]
  | cons u rest ih =>
      cases rest with
      | nil => simp [distancia_total_metros]
      | cons v rest' =>
          rw [distancia_total_cons]
          have hp : 0 ≤ peso edges u v := by
            unfold peso
            cases hev : edges u v with
            | nil => simp
            | cons d ds =>
                exact minLen_nonneg ds d (h u v d (hev ▸ List.mem_cons_self d ds))
                  (fun x hx => h u v x (hev ▸ List.mem_cons_of_mem d hx))
          exact add_nonneg hp ih

theorem distancia_total_append_cons (edges : Nat → Nat → List ℚ) :
    ∀ (l : List Nat) (x : Nat) (m : List Nat),
      distancia_total_metros edges (l ++ x :: m) =
        distancia_total_metros edges (l ++ [x]) + distancia_total_metros edges (x :: m) := by
  intro l
  induction l with
  | nil => intro x m; simp [distancia_total_metros]
  | cons a l ih =>
      intro x m
      cases l with
      | nil =>
          have h1 : distancia_total_metros edges [a, x] = peso edges a x := by
            rw [distancia_total_cons]
            simp [distancia_total_metros]
          simp only [List.nil_append, List.cons_append]
          rw [distancia_total_cons, h1]
      | cons b l' =>
          simp only [List.cons_append] at *
          rw [distancia_total_cons, distancia_total_cons, ih x m, add_assoc]

/-! ### Helper lemmas about the seam rule and the assembly loop -/

theorem seam_append_nil_acc (path : List Nat) : seam_append [] path = path := by
  cases path <;> simp [seam_append]

theorem seam_append_drop (acc : List Nat) (u : Nat) (rest : List Nat)
    (hl : acc.getLast? = some u) :
    seam_append acc (u :: rest) = acc ++ rest := by
  unfold seam_append
  rw [hl]
  simp

theorem seam_append_getLast (acc path : List Nat) (u v : Nat)
    (hl : acc.getLast? = some u) (hhead : path.head? = some u)
    (hlast : path.getLast? = some v) :
    (seam_append acc path).getLast? = some v := by
  cases path with
  | nil => simp at hhead
  | cons p rest =>
      have hp : p = u := by simpa using hhead
      subst hp
      rw [seam_append_drop acc p rest hl]
      cases rest with
      | nil =>
          have : p = v := by simpa using hlast
          simpa [this] using hl
      | cons r rs =>
          rw [List.getLast?_append]
          have : (r :: rs).getLast? = some v := by
            rw [← List.getLast?_cons_cons (a := p)]
            exact hlast
          simp [this]

theorem distancia_total_seam (edges : Nat → Nat → List ℚ)
    (acc : List Nat) (u : Nat) (rest : List Nat)
    (hl : acc.getLast? = some u) :
    distancia_total_metros edges (seam_append acc (u :: rest)) =
      distancia_total_metros edges acc + distancia_total_metros edges (u :: rest) := by
  rw [seam_append_drop acc u rest hl]
  have hacc : acc.dropLast ++ [u] = acc :=
    List.dropLast_append_getLast? u (by rw [hl]; rfl)
  calc distancia_total_metros edges (acc ++ rest)
      = distancia_total_metros edges ((acc.dropLast ++ [u]) ++ rest) := by rw [hacc]
    _ = distancia_total_metros edges (acc.dropLast ++ (u :: rest)) := by
        rw [List.append_assoc]; rfl
    _ = distancia_total_metros edges (acc.dropLast ++ [u]) +
          distancia_total_metros edges (u :: rest) :=
        distancia_total_append_cons edges acc.dropLast u rest
    _ = distancia_total_metros edges acc + distancia_total_metros edges (u :: rest) := by
        rw [hacc]

theorem chain'_ne_seam_append (acc path : List Nat)
    (hacc : List.Chain' (fun a b => a ≠ b) acc)
    (hpath : List.Chain' (fun a b => a ≠ b) path) :
    List.Chain' (fun a b => a ≠ b) (seam_append acc path) := by
  unfold seam_append
  cases hg : acc.getLast? with
  | none =>
      cases path with
      | nil => simpa using hacc
      | cons p rest =>
          rw [List.chain'_append]
          refine ⟨hacc, hpath, ?_⟩
          intro x hx
          rw [hg] at hx
          simp at hx
  | some l =>
      cases path with
      | nil => simpa using hacc
      | cons p rest =>
          by_cases hpe : p = l
          · simp only [hpe, eq_self_iff_true, if_true]
            rw [List.chain'_append]
            refine ⟨hacc, (List.chain'_cons'.1 hpath).2, ?_⟩
            intro x hx y hy
            have hx' : l = x := by rw [hg] at hx; simpa using hx
            have := (List.chain'_cons'.1 hpath).1 y hy
            rw [← hx', ← hpe]
            exact this
          · simp only [if_neg hpe]
            rw [List.chain'_append]
            refine ⟨hacc, hpath, ?_⟩
            intro x hx y hy
            have hx' : l = x := by rw [hg] at hx; simpa using hx
            have hy' : p = y := by simpa using hy
            rw [← hx', ← hy']
            exact fun h => hpe h.symm

theorem chain'_ne_rota_final_aux (sp : Nat → Nat → List Nat)
    (hsp : ∀ u v, List.Chain' (fun a b => a ≠ b) (sp u v)) :
    ∀ (ns acc : List Nat), List.Chain' (fun a b => a ≠ b) acc →
      List.Chain' (fun a b => a ≠ b) (rota_final_aux sp acc ns) := by
  intro ns
  induction ns with
  | nil => intro acc h; exact h
  | cons u rest ih =>
      intro acc h
      cases rest with
      | nil => exact h
      | cons v rest' =>
          exact ih (seam_append acc (sp u v))
            (chain'_ne_seam_append acc (sp u v) h (hsp u v))

theorem pares_cons_cons (a b : Nat) (l : List Nat) :
    pares (a :: b :: l) = (a, b) :: pares (b :: l) := rfl

theorem pares_singleton (a : Nat) : pares [a] = [] := rfl

theorem distancia_rota_final_aux (edges : Nat → Nat → List ℚ)
    (sp : Nat → Nat → List Nat)
    (h1 : ∀ u v, (sp u v).head? = some u)
    (h2 : ∀ u v, (sp u v).getLast? = some v) :
    ∀ (rest acc : List Nat) (v : Nat), acc.getLast? = some v →
      distancia_total_metros edges (rota_final_aux sp acc (v :: rest)) =
        distancia_total_metros edges acc +
          ((pares (v :: rest)).map fun p => spl edges sp p.1 p.2).sum := by
  intro rest
  induction rest with
  | nil =>
      intro acc v _
      simp [rota_final_aux, pares_singleton]
  | cons w rest' ih =>
      intro acc v hl
      obtain ⟨t, hspvw⟩ : ∃ t, sp v w = v :: t := by
        cases hs : sp v w with
        | nil => have := h1 v w; rw [hs] at this; simp at this
        | cons a t =>
            have := h1 v w
            rw [hs] at this
            simp at this
            exact ⟨t, by rw [this]⟩
      have hlast' : (seam_append acc (sp v w)).getLast? = some w :=
        seam_append_getLast acc (sp v w) v w hl (h1 v w) (h2 v w)
      have hseam : distancia_total_metros edges (seam_append acc (sp v w)) =
          distancia_total_metros edges acc + distancia_total_metros edges (sp v w) := by
        rw [hspvw]
        exact distancia_total_seam edges acc v t hl
      have hstep : rota_final_aux sp acc (v :: w :: rest') =
          rota_final_aux sp (seam_append acc (sp v w)) (w :: rest') := rfl
      rw [hstep, ih (seam_append acc (sp v w)) w hlast', hseam,
        pares_cons_cons]
      show distancia_total_metros edges acc + distancia_total_metros edges (sp v w) +
          ((pares (w :: rest')).map fun p => spl edges sp p.1 p.2).sum =
        distancia_total_metros edges acc +
          (spl edges sp v w + ((pares (w :: rest')).map fun p => spl edges sp p.1 p.2).sum)
      rw [spl, add_assoc]

theorem distancia_rota_final (edges : Nat → Nat → List ℚ)
    (sp : Nat → Nat → List Nat)
    (h1 : ∀ u v, (sp u v).head? = some u)
    (h2 : ∀ u v, (sp u v).getLast? = some v) (ns : List Nat) :
    distancia_total_metros edges (rota_final sp ns) =
      ((pares ns).map fun p => spl edges sp p.1 p.2).sum := by
  cases ns with
  | nil => simp [rota_final, rota_final_aux, pares, distancia_total_metros]
  | cons u rest =>
      cases rest with
      | nil => simp [rota_final, rota_final_aux, pares_singleton, distancia_total_metros]
      | cons v rest' =>
          have hstep : rota_final sp (u :: v :: rest') =
              rota_final_aux sp (seam_append [] (sp u v)) (v :: rest') := rfl
          rw [hstep, seam_append_nil_acc,
            distancia_rota_final_aux edges sp h1 h2 rest' (sp u v) v (h2 u v),
            pares_cons_cons]
          show distancia_total_metros edges (sp u v) +
              ((pares (v :: rest')).map fun p => spl edges sp p.1 p.2).sum =
            spl edges sp u v + ((pares (v :: rest')).map fun p => spl edges sp p.1 p.2).sum
          rw [spl]

/-! ### Helper lemmas about `py_int` and the matrix entries -/

theorem py_int_of_nonneg (q : ℚ) (h : 0 ≤ q) : py_int q = Int.floor q := by
  unfold py_int
  rw [if_neg (not_lt.2 h)]

theorem py_int_bounds (q : ℚ) (h : 0 ≤ q) :
    0 ≤ py_int q ∧ (py_int q : ℚ) ≤ q ∧ q < (py_int q : ℚ) + 1 := by
  rw [py_int_of_nonneg q h]
  exact ⟨Int.floor_nonneg.2 h, Int.floor_le q, Int.lt_floor_add_one q⟩

theorem matriz_leg_bounds (edges : Nat → Nat → List ℚ)
    (sp : Nat → Nat → List Nat) (ns : List Nat)
    (h4 : ∀ u v x, x ∈ edges u v → 0 ≤ x)
    (h5 : ∀ u, sp u u = [u]) (i j : Nat) :
    ((matriz edges sp ns i j : ℤ) : ℚ) ≤ spl edges sp (ns.getD i 0) (ns.getD j 0) ∧
      spl edges sp (ns.getD i 0) (ns.getD j 0) < (matriz edges sp ns i j : ℚ) + 1 := by
  by_cases hij : i = j
  · subst hij
    have hz : spl edges sp (ns.getD i 0) (ns.getD i 0) = 0 := by
      rw [spl, h5]
      rfl
    rw [matriz, if_pos rfl, hz]
    norm_num
  · rw [matriz, if_neg hij]
    have hq : 0 ≤ spl edges sp (ns.getD i 0) (ns.getD j 0) :=
      distancia_total_nonneg edges h4 _
    have h := py_int_bounds _ hq
    exact ⟨h.2.1, h.2.2⟩

theorem soma_bounds (m : Nat → Nat → ℤ) (f : Nat × Nat → ℚ) :
    ∀ ps : List (Nat × Nat),
      (∀ p ∈ ps, ((m p.1 p.2 : ℤ) : ℚ) ≤ f p ∧ f p < ((m p.1 p.2 : ℤ) : ℚ) + 1) →
      (((ps.map fun p => m p.1 p.2).sum : ℚ) ≤ (ps.map f).sum ∧
        (ps.map f).sum ≤ ((ps.map fun p => m p.1 p.2).sum : ℚ) + ps.length ∧
        (ps ≠ [] →
          (ps.map f).sum < ((ps.map fun p => m p.1 p.2).sum : ℚ) + ps.length)) := by
  intro ps
  induction ps with
  | nil => simp
  | cons p ps ih =>
      intro h
      have hp := h p (List.mem_cons_self _ _)
      have hrest := ih fun q hq => h q (List.mem_cons_of_mem _ hq)
      refine ⟨?_, ?_, fun _ => ?_⟩
      · simp only [List.map_cons, List.sum_cons]
        push_cast
        push_cast at hrest
        linarith [hp.1, hrest.1]
      · simp only [List.map_cons, List.sum_cons, List.length_cons]
        push_cast
        push_cast at hrest
        linarith [hp.2, hrest.2.1]
      · simp only [List.map_cons, List.sum_cons, List.length_cons]
        push_cast
        push_cast at hrest
        linarith [hp.2, hrest.2.1]

theorem pares_rota_nos (ns tour : List Nat) :
    pares (rota_nos ns tour) =
      (pares tour).map fun p => (ns.getD p.1 0, ns.getD p.2 0) := by
  unfold pares rota_nos
  rw [← List.map_tail, List.zip_map]
  rfl

/-! ### Helper lemmas about matrix construction in `Except` -/

theorem linha_matriz_aux_error (d : Nat → Nat → Option ℚ) (ns : List Nat)
    (i : Nat) :
    ∀ js : List Nat,
      (∃ j ∈ js, i ≠ j ∧ d (ns.getD i 0) (ns.getD j 0) = none) →
      ∀ row, linha_matriz_aux d ns i js row =
        Except.error "RoutingInfeasibleError" := by
  intro js
  induction js with
  | nil => intro h; simp at h
  | cons j js' ih =>
      intro h row
      obtain ⟨k, hk, hik, hdk⟩ := h
      by_cases hij : i = j
      · have hk' : k ∈ js' := by
          rcases List.mem_cons.1 hk with h1 | h1
          · exact absurd (h1 ▸ hij) hik
          · exact h1
        rw [linha_matriz_aux, if_pos hij]
        exact ih ⟨k, hk', hik, hdk⟩ _
      · cases hd : d (ns.getD i 0) (ns.getD j 0) with
        | none =>
            rw [linha_matriz_aux, if_neg hij, hd]
        | some q =>
            have hk' : k ∈ js' := by
              rcases List.mem_cons.1 hk with h1 | h1
              · rw [h1] at hdk; rw [hdk] at hd; exact absurd hd (by simp)
              · exact h1
            rw [linha_matriz_aux, if_neg hij, hd]
            exact ih ⟨k, hk', hik, hdk⟩ _

theorem linha_matriz_aux_shape (d : Nat → Nat → Option ℚ) (ns : List Nat)
    (i : Nat) :
    ∀ (js : List Nat) (row : List ℤ),
      (∃ r, linha_matriz_aux d ns i js row = Except.ok r) ∨
        linha_matriz_aux d ns i js row = Except.error "RoutingInfeasibleError" := by
  intro js
  induction js with
  | nil => intro row; exact Or.inl ⟨row, rfl⟩
  | cons j js' ih =>
      intro row
      by_cases hij : i = j
      · rw [linha_matriz_aux, if_pos hij]
        exact ih _
      · cases hd : d (ns.getD i 0) (ns.getD j 0) with
        | none =>
            rw [linha_matriz_aux, if_neg hij, hd]
            exact Or.inr rfl
        | some q =>
            rw [linha_matriz_aux, if_neg hij, hd]
            exact ih _

theorem matriz_completa_aux_error (d : Nat → Nat → Option ℚ) (ns : List Nat)
    (n : Nat) :
    ∀ is : List Nat,
      (∃ i ∈ is, linha_matriz d ns n i = Except.error "RoutingInfeasibleError") →
      ∀ rows, matriz_completa_aux d ns n is rows =
        Except.error "RoutingInfeasibleError" := by
  intro is
  induction is with
  | nil => intro h; simp at h
  | cons i is' ih =>
      intro h rows
      obtain ⟨k, hk, hlin⟩ := h
      rcases linha_matriz_aux_shape d ns i (List.range n) [] with ⟨r, hr⟩ | hr
      · have hok : linha_matriz d ns n i = Except.ok r := by
          rw [linha_matriz, hr]
        have hk' : k ∈ is' := by
          rcases List.mem_cons.1 hk with h1 | h1
          · rw [h1, hok] at hlin; exact absurd hlin (by simp)
          · exact h1
        rw [matriz_completa_aux]
        simp only [hok]
        exact ih ⟨k, hk', hlin⟩ _
      · have he : linha_matriz d ns n i = Except.error "RoutingInfeasibleError" := by
          rw [linha_matriz, hr]
        rw [matriz_completa_aux]
        simp only [he]

/-! ### Claim theorems -/

/-- C1: whenever the solver finds a solution — abstracted, per the OR-Tools
guarantee, as a walk visiting every waypoint index `0..N-1` exactly once and
starting at the fixed start `0` — the list returned by `resolver_tsp` has
length `N+1`, starts and ends at index `0` (which appears exactly twice), and
every other index `1..N-1` appears exactly once in between. -/
theorem C1_tour_permutation (walk : List Nat) (n : Nat)
    (hperm : walk.Perm (List.range n)) (hhead : walk.head? = some 0) :
    ∃ r, resolver_tsp (some walk) = some r ∧
      r.length = n + 1 ∧ r.head? = some 0 ∧ r.getLast? = some 0 ∧
      r.count 0 = 2 ∧ (∀ i, 0 < i → i < n → r.count i = 1) ∧
      (∀ i, n ≤ i → r.count i = 0) := by
  have hd0 : walk.headD 0 = 0 := by
    rw [List.headD_eq_head?_getD, hhead]
    rfl
  have hne : walk ≠ [] := by
    intro h
    rw [h] at hhead
    exact Option.noConfusion hhead
  have hn : 0 < n := by
    rcases Nat.eq_zero_or_pos n with h0 | h0
    · subst h0
      rw [List.range_zero] at hperm
      exact absurd hperm.eq_nil hne
    · exact h0
  have hcount : ∀ a, walk.count a = if a < n then 1 else 0 := by
    intro a
    rw [hperm.count_eq a, List.count_eq_of_nodup (List.nodup_range n)]
    simp [List.mem_range]
  refine ⟨walk ++ [0], ?_, ?_, ?_, ?_, ?_, ?_, ?_⟩
  · simp [resolver_tsp, hhead]
  · rw [List.length_append, hperm.length_eq, List.length_range]
    rfl
  · rw [List.head?_append, hhead]
    rfl
  · exact List.getLast?_concat _
  · rw [List.count_append, hcount 0, if_pos hn]
    simp
  · intro i h0i hin
    rw [List.count_append, hcount i, if_pos hin]
    have : i ≠ 0 := Nat.pos_iff_ne_zero.1 h0i
    simp [this]
  · intro i hni
    have h1 : ¬ i < n := by omega
    have h2 : i ≠ 0 := by omega
    rw [List.count_append, hcount i, if_neg h1]
    simp [h2]

/-- Witness for C1 at the concrete solver walk `[0, 2, 1]` with `N = 3`. -/
theorem C1_witness :
    ∃ r, resolver_tsp (some [0, 2, 1]) = some r ∧
      r.length = 3 + 1 ∧ r.head? = some 0 ∧ r.getLast? = some 0 ∧
      r.count 0 = 2 ∧ (∀ i, 0 < i → i < 3 → r.count i = 1) ∧
      (∀ i, 3 ≤ i → r.count i = 0) :=
  C1_tour_permutation [0, 2, 1] 3 (by decide) rfl

/-- C2: in the node sequence assembled by `rota_final`, no two consecutive
entries are identical, given that each per-leg shortest path itself never
repeats a node consecutively; the seam rule drops the duplicated junction
before each append, so every junction node appears exactly once there. -/
theorem C2_seam_no_dup (sp : Nat → Nat → List Nat) (ns : List Nat)
    (hsp : ∀ u v, List.Chain' (fun a b => a ≠ b) (sp u v)) :
    List.Chain' (fun a b => a ≠ b) (rota_final sp ns) :=
  chain'_ne_rota_final_aux sp hsp ns [] List.chain'_nil

/-- Witness for C2 on the concrete two-waypoint closed route `0 → 1 → 0`. -/
theorem C2_witness :
    List.Chain' (fun a b => a ≠ b) (rota_final spW [0, 1, 0]) :=
  C2_seam_no_dup spW [0, 1, 0] (by
    intro u v
    by_cases h : u = v <;> simp [spW, h])

/-- C3: for a pipeline run with at least two waypoints, the total distance
recomputed by summing edge weights along the assembled node sequence lies
within truncation tolerance of the sum of the distance-matrix entries along
the consecutive tour edges: the matrix sum is a lower bound, and the
recomputed total exceeds it by strictly less than one meter per leg. -/
theorem C3_distance_consistency (edges : Nat → Nat → List ℚ)
    (sp : Nat → Nat → List Nat) (ns tour : List Nat)
    (h1 : ∀ u v, (sp u v).head? = some u)
    (h2 : ∀ u v, (sp u v).getLast? = some v)
    (h4 : ∀ u v x, x ∈ edges u v → 0 ≤ x)
    (h5 : ∀ u, sp u u = [u])
    (_hN : 2 ≤ ns.length) (htour : 2 ≤ tour.length) :
    ((soma_matriz_tour (matriz edges sp ns) tour : ℤ) : ℚ) ≤
        distancia_total_metros edges (rota_final sp (rota_nos ns tour)) ∧
      distancia_total_metros edges (rota_final sp (rota_nos ns tour)) <
        ((soma_matriz_tour (matriz edges sp ns) tour : ℤ) : ℚ) +
          (pares tour).length := by
  rw [distancia_rota_final edges sp h1 h2, pares_rota_nos, List.map_map,
    soma_matriz_tour]
  have hb := soma_bounds (matriz edges sp ns)
    (fun p => spl edges sp (ns.getD p.1 0) (ns.getD p.2 0)) (pares tour)
    (fun p _ => matriz_leg_bounds edges sp ns h4 h5 p.1 p.2)
  have hne : pares tour ≠ [] := by
    cases tour with
    | nil => simp at htour
    | cons a rest =>
        cases rest with
        | nil => simp at htour
        | cons b t =>
            rw [pares_cons_cons]
            simp
  exact ⟨hb.1, hb.2.2 hne⟩

/-- Witness for C3 on a two-waypoint graph with every leg of length 3/2. -/
theorem C3_witness :
    ((soma_matriz_tour (matriz edgesW2 spW [0, 1]) [0, 1, 0] : ℤ) : ℚ) ≤
        distancia_total_metros edgesW2 (rota_final spW (rota_nos [0, 1] [0, 1, 0])) ∧
      distancia_total_metros edgesW2 (rota_final spW (rota_nos [0, 1] [0, 1, 0])) <
        ((soma_matriz_tour (matriz edgesW2 spW [0, 1]) [0, 1, 0] : ℤ) : ℚ) +
          (pares [0, 1, 0]).length :=
  C3_distance_consistency edgesW2 spW [0, 1] [0, 1, 0]
    (by intro u v; by_cases h : u = v <;> simp [spW, h])
    (by intro u v; by_cases h : u = v <;> simp [spW, h])
    (by
      intro u v x hx
      by_cases h : u = v <;> simp [edgesW2, h] at hx
      rw [hx]
      norm_num)
    (by intro u; simp [spW])
    (by norm_num) (by norm_num)

/-- C4: if some required ordered pair of distinct waypoint indices maps to
nodes with no path between them, matrix construction aborts with
`RoutingInfeasibleError`; in particular no matrix value is ever produced. -/
theorem C4_matrix_abort (d : Nat → Nat → Option ℚ) (ns : List Nat) (n : Nat)
    (h : ∃ i j, i < n ∧ j < n ∧ i ≠ j ∧ d (ns.getD i 0) (ns.getD j 0) = none) :
    matriz_completa d ns n = Except.error "RoutingInfeasibleError" := by
  obtain ⟨i, j, hi, hj, hij, hd⟩ := h
  have hlin : linha_matriz d ns n i = Except.error "RoutingInfeasibleError" := by
    rw [linha_matriz]
    exact linha_matriz_aux_error d ns i (List.range n)
      ⟨j, List.mem_range.2 hj, hij, hd⟩ []
  rw [matriz_completa]
  exact matriz_completa_aux_error d ns n (List.range n)
    ⟨i, List.mem_range.2 hi, hlin⟩ []

/-- Witness for C4 with two waypoints and every pair unreachable. -/
theorem C4_witness :
    matriz_completa dW [0, 1] 2 = Except.error "RoutingInfeasibleError" :=
  C4_matrix_abort dW [0, 1] 2
    ⟨0, 1, by norm_num, by norm_num, by norm_num, rfl⟩

/-- C5: the claim says that when the solver returns `None` the pipeline
aborts with a clear failure message; the code instead evaluates the
`rota_coordenadas` comprehension of line 68 before the `None` check of line
70, so it raises `TypeError` and the clear message of line 78 is never
produced — the reporting stage never returns `ok` at all. This contradicts
the code's own line-78 branch, which is unreachable for a `None` tour. -/
theorem C5_none_typeerror :
    mostrar_resultado [] (resolver_tsp none) =
        Except.error "TypeError: NoneType is not iterable" ∧
      ∀ s, mostrar_resultado [] (resolver_tsp none) ≠ Except.ok s := by
  refine ⟨rfl, fun s h => ?_⟩
  rw [show mostrar_resultado [] (resolver_tsp none) =
      Except.error "TypeError: NoneType is not iterable" from rfl] at h
  exact Except.noConfusion h

/-- C6: when a consecutive node pair of the final sequence has parallel
edges, the amount added to the total for that pair is the minimum `length`
among them: it is one of the parallel-edge weights and is no larger than any
of them. -/
theorem C6_min_parallel (edges : Nat → Nat → List ℚ) (u v : Nat)
    (rest : List Nat) (d : ℚ) (ds : List ℚ) (h : edges u v = d :: ds) :
    distancia_total_metros edges (u :: v :: rest) =
        minLen d ds + distancia_total_metros edges (v :: rest) ∧
      minLen d ds ∈ edges u v ∧ ∀ x ∈ edges u v, minLen d ds ≤ x := by
  refine ⟨?_, ?_, ?_⟩
  · rw [distancia_total_cons]
    have hp : peso edges u v = minLen d ds := by
      simp [peso, h]
    rw [hp]
  · rw [h]
    exact minLen_mem ds d
  · intro x hx
    rw [h] at hx
    rcases List.mem_cons.1 hx with h1 | h1
    · rw [h1]
      exact (minLen_le ds d).1
    · exact (minLen_le ds d).2 x h1

/-- Witness for C6 on the pair `(0, 1)` with parallel edges 5, 3, 4. -/
theorem C6_witness :
    distancia_total_metros edgesW [0, 1] =
        minLen 5 [3, 4] + distancia_total_metros edgesW [1] ∧
      minLen 5 [3, 4] ∈ edgesW 0 1 ∧ ∀ x ∈ edgesW 0 1, minLen 5 [3, 4] ≤ x :=
  C6_min_parallel edgesW 0 1 [] 5 [3, 4] (by simp [edgesW])

/-- C7: with a single waypoint the solver walk can only be `[0]`, so
`resolver_tsp` returns the trivial tour `[0, 0]`, the assembled route
collapses to the single mapped node, its total distance is 0, and the 1×1
matrix entry is 0. -/
theorem C7_single_waypoint (walk : List Nat) (edges : Nat → Nat → List ℚ)
    (sp : Nat → Nat → List Nat) (u : Nat)
    (hperm : walk.Perm (List.range 1))
    (h5 : ∀ x, sp x x = [x]) :
    resolver_tsp (some walk) = some [0, 0] ∧
      distancia_total_metros edges (rota_final sp (rota_nos [u] [0, 0])) = 0 ∧
      matriz edges sp [u] 0 0 = 0 := by
  have hwalk : walk = [0] := by
    have hr : List.range 1 = [0] := rfl
    rw [hr] at hperm
    exact List.perm_singleton.1 hperm
  refine ⟨?_, ?_, ?_⟩
  · rw [hwalk]
    rfl
  · have hrn : rota_nos [u] [0, 0] = [u, u] := rfl
    have hrf : rota_final sp [u, u] = [u] := by
      show rota_final_aux sp (seam_append [] (sp u u)) [u] = [u]
      rw [h5, seam_append_nil_acc]
      rfl
    rw [hrn, hrf]
    rfl
  · rw [matriz, if_pos rfl]

/-- Witness for C7 with the mapped node 7 on the complete fixture graph. -/
theorem C7_witness :
    resolver_tsp (some [0]) = some [0, 0] ∧
      distancia_total_metros edgesW2 (rota_final spW (rota_nos [7] [0, 0])) = 0 ∧
      matriz edgesW2 spW [7] 0 0 = 0 :=
  C7_single_waypoint [0] edgesW2 spW 7 (by decide) (by intro x; simp [spW])

/-- C8: the nearest-node lookup trace of the pipeline is exactly the
waypoint list (one lookup per waypoint, in order), the cached list it
produces is the `nos` list the matrix builder indexes, and the node the
Route Assembler places at tour position `k` is that same cached entry for
waypoint `tour[k]` — the mapping is shared, never recomputed. -/
theorem C8_shared_nodes (nn : ℚ × ℚ → Nat) (coords : List (ℚ × ℚ))
    (tour : List Nat) (k : Nat) (hk : k < tour.length) :
    (nosTrace nn coords).2 = coords ∧
      (nosTrace nn coords).1 = nos nn coords ∧
      (rota_nos (nos nn coords) tour).getD k 0 =
        (nos nn coords).getD (tour.getD k 0) 0 := by
  refine ⟨?_, ?_, ?_⟩
  · induction coords with
    | nil => rfl
    | cons c cs ih => simp [nosTrace, ih]
  · induction coords with
    | nil => rfl
    | cons c cs ih => simp [nosTrace, nos] at ih ⊢; exact ih
  · have ht : tour.getD k 0 = tour[k] := List.getD_eq_getElem _ _ hk
    have hk' : k < (tour.map fun i => (nos nn coords).getD i 0).length := by
      simpa using hk
    rw [ht, rota_nos, List.getD_eq_getElem _ _ hk', List.getElem_map]

/-- Witness for C8 on two concrete coordinates and the tour `[0, 1, 0]`. -/
theorem C8_witness :
    (nosTrace (fun c => if c.1 = 0 then 4 else 9) [(0, 0), (1, 1)]).2 =
        [(0, 0), (1, 1)] ∧
      (nosTrace (fun c => if c.1 = 0 then 4 else 9) [(0, 0), (1, 1)]).1 =
        nos (fun c => if c.1 = 0 then 4 else 9) [(0, 0), (1, 1)] ∧
      (rota_nos (nos (fun c => if c.1 = 0 then 4 else 9) [(0, 0), (1, 1)])
          [0, 1, 0]).getD 1 0 =
        (nos (fun c => if c.1 = 0 then 4 else 9) [(0, 0), (1, 1)]).getD
          (([0, 1, 0] : List Nat).getD 1 0) 0 :=
  C8_shared_nodes (fun c => if c.1 = 0 then 4 else 9) [(0, 0), (1, 1)]
    [0, 1, 0] 1 (by norm_num)

/-- C9: every off-diagonal matrix entry is the truncation toward zero of the
(nonnegative) shortest-path length, hence a nonnegative integer with
`entry ≤ length < entry + 1`; the assembled total, by contrast, sums the
untruncated weights (`distancia_rota_final`). -/
theorem C9_truncation_bounds (edges : Nat → Nat → List ℚ)
    (sp : Nat → Nat → List Nat) (ns : List Nat) (i j : Nat)
    (hij : i ≠ j) (h4 : ∀ u v x, x ∈ edges u v → 0 ≤ x) :
    0 ≤ matriz edges sp ns i j ∧
      ((matriz edges sp ns i j : ℤ) : ℚ) ≤
        spl edges sp (ns.getD i 0) (ns.getD j 0) ∧
      spl edges sp (ns.getD i 0) (ns.getD j 0) <
        ((matriz edges sp ns i j : ℤ) : ℚ) + 1 := by
  have hq : 0 ≤ spl edges sp (ns.getD i 0) (ns.getD j 0) :=
    distancia_total_nonneg edges h4 _
  have h := py_int_bounds _ hq
  rw [matriz, if_neg hij]
  exact ⟨h.1, h.2.1, h.2.2⟩

/-- Witness for C9 at the off-diagonal entry `(0, 1)` of the fixture graph. -/
theorem C9_witness :
    0 ≤ matriz edgesW2 spW [0, 1] 0 1 ∧
      ((matriz edgesW2 spW [0, 1] 0 1 : ℤ) : ℚ) ≤
        spl edgesW2 spW (([0, 1] : List Nat).getD 0 0) (([0, 1] : List Nat).getD 1 0) ∧
      spl edgesW2 spW (([0, 1] : List Nat).getD 0 0) (([0, 1] : List Nat).getD 1 0) <
        ((matriz edgesW2 spW [0, 1] 0 1 : ℤ) : ℚ) + 1 :=
  C9_truncation_bounds edgesW2 spW [0, 1] 0 1 (by norm_num)
    (by
      intro u v x hx
      by_cases h : u = v <;> simp [edgesW2, h] at hx
      rw [hx]
      norm_num)

/-- C10: a consecutive pair of the assembled sequence with no edge data is
silently skipped — it contributes exactly 0 to the total, which therefore
stays defined (the function is total) but can undercount. -/
theorem C10_missing_edge_skip (edges : Nat → Nat → List ℚ) (u v : Nat)
    (rest : List Nat) (h : edges u v = []) :
    distancia_total_metros edges (u :: v :: rest) =
      distancia_total_metros edges (v :: rest) := by
  rw [distancia_total_cons]
  have hp : peso edges u v = 0 := by
    simp [peso, h]
  rw [hp, zero_add]

/-- Witness for C10 on the pair `(1, 0)`, which has no edge data in the
fixture graph. -/
theorem C10_witness :
    distancia_total_metros edgesW [1, 0, 1] =
      distancia_total_metros edgesW [0, 1] :=
  C10_missing_edge_skip edgesW 1 0 [1] (by simp [edgesW])

end RotaApp
